import Mathlib

/-!
A verification development for the `pyqueue` message broker.

The storage engine (`pyqueue/storage/log.py`, `offsets.py`, `queue.py`) and the
wire-protocol parser (`pyqueue/broker/protocol.py`) are embedded shallowly:

* Byte strings are `List Nat`.  Message payloads are modelled at the byte
  level; the UTF-8 encode/decode pair used by `PersistentQueue.push`/`pull`
  is a bijection between texts and their byte encodings and is treated as the
  identity correspondence here.
* The log file on disk is the `file` field of `AppendLog`; every `append`
  flushes, so the in-memory handle and the on-disk bytes never diverge at the
  granularity of queue operations.
* `struct.pack(">I", n)` is defined only for `n < 2^32` (it raises otherwise);
  `pack32` gives its value on that domain, and theorems carry the
  corresponding `< 2^32` hypotheses.
* The offset ledger is a Python dict with string keys; it is modelled as an
  insertion-ordered association list with unique-key update semantics, and
  the JSON file holding it is modelled by its parsed content (a string→nat
  table), since JSON round-trips such tables faithfully.
-/

deriving instance DecidableEq for Except

/-- Big-endian 4-byte encoding, the value of `struct.pack(">I", n)` for
`n < 2^32`. -/
def pack32 (n : Nat) : List Nat :=
  [n / 16777216 % 256, n / 65536 % 256, n / 256 % 256, n % 256]

/-- Big-endian decoding of a byte list, the value of `struct.unpack(">I", b)`
on a 4-byte list `b`. -/
def unpack32 (bs : List Nat) : Nat :=
  bs.foldl (fun a b => a * 256 + b) 0

/-- Body of `AppendLog.read_at` (log.py lines 34-45): seek to `offset`, read a
4-byte header, fail if short, read the declared number of payload bytes, fail
if short, and return the payload. -/
def readRecord (file : List Nat) (offset : Nat) : Except String (List Nat) :=
  let header := (file.drop offset).take 4
  if header.length < 4 then
    Except.error "incomplete header"
  else
    let len := unpack32 header
    let data := ((file.drop offset).drop 4).take len
    if data.length < len then
      Except.error "incomplete data"
    else
      Except.ok data

/-- One `while True` loop of `AppendLog.replay` (log.py lines 47-65), with an
explicit iteration bound `fuel`.  Each iteration either breaks (short header,
EOF, or short payload) or consumes at least 4 bytes, so the loop runs at most
`file.length / 4 + 1` times; `replayFrom` supplies ample fuel. -/
def replayLoop : Nat → List Nat → Nat → List (Nat × List Nat)
  | 0, _, _ => []
  | fuel + 1, file, offset =>
    if (file.drop offset).length < 4 then
      []
    else
      let len := unpack32 ((file.drop offset).take 4)
      let data := ((file.drop offset).drop 4).take len
      if data.length < len then
        []
      else
        (offset, data) :: replayLoop fuel file (offset + 4 + len)

/-- `AppendLog.replay` scanning the file bytes from offset 0. -/
def replayFrom (file : List Nat) (offset : Nat) : List (Nat × List Nat) :=
  replayLoop (file.length + 1) file offset

/-- `AppendLog` (log.py): the on-disk bytes plus the cached write offset
(`self._write_offset`, set to the end-of-file position on open). -/
structure AppendLog where
  file : List Nat
  writeOffset : Nat
deriving DecidableEq

/-- `AppendLog.__init__` on an existing (or empty) file: open in append mode,
seek to the end, record the write offset. -/
def AppendLog.openLog (bytes : List Nat) : AppendLog :=
  { file := bytes, writeOffset := bytes.length }

/-- `AppendLog.append` (log.py lines 24-32): write `[4-byte length][data]` at
the end of the file, flush, advance the write offset, return the offset the
record was written at. -/
def AppendLog.append (l : AppendLog) (data : List Nat) : AppendLog × Nat :=
  ({ file := l.file ++ pack32 data.length ++ data,
     writeOffset := l.writeOffset + 4 + data.length }, l.writeOffset)

/-- `AppendLog.read_at`: reopens the path and reads the current file bytes. -/
def AppendLog.readAt (l : AppendLog) (offset : Nat) : Except String (List Nat) :=
  readRecord l.file offset

/-- `AppendLog.replay`: reopens the path and scans from byte 0. -/
def AppendLog.replay (l : AppendLog) : List (Nat × List Nat) :=
  replayFrom l.file 0

/-- Python dict read `d.get(key, 0)` on an insertion-ordered table: first
binding wins, absent key gives 0 (offsets.py lines 20-22). -/
def dictGet : List (String × Nat) → String → Nat
  | [], _ => 0
  | (k, v) :: rest, key => if key = k then v else dictGet rest key

/-- Python dict write `d[key] = v`: replace the existing binding in place, or
append a new binding at the end. -/
def dictSet : List (String × Nat) → String → Nat → List (String × Nat)
  | [], key, v => [(key, v)]
  | (k, w) :: rest, key, v =>
    if key = k then (key, v) :: rest else (k, w) :: dictSet rest key v

/-- `OffsetStore` (offsets.py): the in-memory table `self._offsets` and the
parsed content of the JSON ledger file at `self._path`. -/
structure OffsetStore where
  table : List (String × Nat)
  disk : List (String × Nat)
deriving DecidableEq

/-- `OffsetStore.__init__`/`load`: read the table from the ledger file (an
absent or unparsable file yields the empty table, modelled by `[]`). -/
def OffsetStore.load (ledger : List (String × Nat)) : OffsetStore :=
  { table := ledger, disk := ledger }

/-- `OffsetStore.get` (offsets.py lines 20-22). -/
def OffsetStore.get (s : OffsetStore) (cid : String) : Nat :=
  dictGet s.table cid

/-- `OffsetStore.save` (offsets.py lines 29-32): rewrite the ledger file with
the whole current table. -/
def OffsetStore.save (s : OffsetStore) : OffsetStore :=
  { s with disk := s.table }

/-- `OffsetStore.set` (offsets.py lines 24-27): update the table, then
`save`. -/
def OffsetStore.set (s : OffsetStore) (cid : String) (v : Nat) : OffsetStore :=
  OffsetStore.save { s with table := dictSet s.table cid v }

/-- The persisted state a broker restart starts from: the log file bytes and
the parsed ledger table. -/
structure DiskState where
  logFile : List Nat
  ledgerFile : List (String × Nat)
deriving DecidableEq

/-- `PersistentQueue` (queue.py): log, offset store, and the in-memory
ordinal index of record offsets. -/
structure PersistentQueue where
  log : AppendLog
  offsets : OffsetStore
  index : List Nat
deriving DecidableEq

/-- `PersistentQueue.__init__` + `_recover` (queue.py lines 21-37): open the
log and ledger from disk and rebuild the index by replaying the log. -/
def PersistentQueue.openQueue (d : DiskState) : PersistentQueue :=
  { log := AppendLog.openLog d.logFile,
    offsets := OffsetStore.load d.ledgerFile,
    index := (AppendLog.openLog d.logFile).replay.map Prod.fst }

/-- The persisted files of a queue state.  `append` flushes and `set` saves
synchronously, so this is exactly what a crash or restart would find. -/
def PersistentQueue.disk (q : PersistentQueue) : DiskState :=
  { logFile := q.log.file, ledgerFile := q.offsets.disk }

/-- A queue opened on a fresh data directory (no log, no ledger). -/
def newQueue : PersistentQueue :=
  PersistentQueue.openQueue { logFile := [], ledgerFile := [] }

/-- `PersistentQueue.push` (queue.py lines 39-46): append the payload to the
log, append the returned offset to the index, return the new ordinal. -/
def PersistentQueue.push (q : PersistentQueue) (data : List Nat) :
    PersistentQueue × Nat :=
  let r := q.log.append data
  ({ q with log := r.1, index := q.index ++ [r.2] }, q.index.length)

/-- `PersistentQueue.pull` (queue.py lines 48-65): read the cursor; if it is
past the index, report no message (`Except.ok none`); otherwise read the
record at `index[cursor]` (a read failure propagates as an error and leaves
the state unchanged), advance and persist the cursor, and return the
payload. -/
def PersistentQueue.pull (q : PersistentQueue) (cid : String) :
    PersistentQueue × Except String (Option (List Nat)) :=
  if h : q.offsets.get cid < q.index.length then
    match q.log.readAt (q.index.get ⟨q.offsets.get cid, h⟩) with
    | Except.error e => (q, Except.error e)
    | Except.ok data =>
      ({ q with offsets := q.offsets.set cid (q.offsets.get cid + 1) },
       Except.ok (some data))
  else
    (q, Except.ok none)

/-- `PersistentQueue.message_count` (queue.py lines 67-70). -/
def PersistentQueue.message_count (q : PersistentQueue) : Nat :=
  q.index.length

/-- `PersistentQueue.consumer_offset` (queue.py lines 72-75). -/
def PersistentQueue.consumer_offset (q : PersistentQueue) (cid : String) : Nat :=
  q.offsets.get cid

/-- The queue operations a client can drive through the broker. -/
inductive QOp where
  | push (data : List Nat)
  | pull (cid : String)
deriving DecidableEq

/-- Apply one operation, keeping the resulting state. -/
def applyOp (q : PersistentQueue) : QOp → PersistentQueue
  | QOp.push d => (q.push d).1
  | QOp.pull c => (q.pull c).1

/-- Run a sequence of operations from a state. -/
def runOps (q : PersistentQueue) (ops : List QOp) : PersistentQueue :=
  ops.foldl applyOp q

/-- A push payload `struct.pack` accepts: length below `2^32`. -/
def validOp : QOp → Prop
  | QOp.push d => d.length < 4294967296
  | QOp.pull _ => True

instance : DecidablePred validOp := fun op =>
  match op with
  | QOp.push d => inferInstanceAs (Decidable (d.length < 4294967296))
  | QOp.pull _ => inferInstanceAs (Decidable True)

/-- Push a whole list of payloads in order. -/
def pushAll (q : PersistentQueue) (msgs : List (List Nat)) : PersistentQueue :=
  msgs.foldl (fun q m => (q.push m).1) q

/-- Pull `n` times as one consumer, collecting the results in order. -/
def pullN (q : PersistentQueue) (cid : String) :
    Nat → PersistentQueue × List (Except String (Option (List Nat)))
  | 0 => (q, [])
  | n + 1 =>
    let r := q.pull cid
    let rr := pullN r.1 cid n
    (rr.1, r.2 :: rr.2)

/-- Run an interleaved schedule of pulls, tagging each result with the
consumer that issued it. -/
def runPulls (q : PersistentQueue) :
    List String → PersistentQueue × List (String × Except String (Option (List Nat)))
  | [] => (q, [])
  | c :: rest =>
    let r := q.pull c
    let rr := runPulls r.1 rest
    (rr.1, (c, r.2) :: rr.2)

/-- The payloads consumer `c` successfully received, in order, from a tagged
result list. -/
def successBodies (c : String)
    (rs : List (String × Except String (Option (List Nat)))) : List (List Nat) :=
  rs.filterMap fun p =>
    if p.1 = c then
      match p.2 with
      | Except.ok (some m) => some m
      | _ => none
    else none

/-- How many pulls a schedule assigns to consumer `c`. -/
def countId (c : String) : List String → Nat
  | [] => 0
  | x :: rest => (if x = c then 1 else 0) + countId c rest

/-- The file-system operations `OffsetStore.save` may perform, at the
granularity the crash-consistency discussion needs: opening a path with mode
`"w"` (which truncates it), writing serialized table content to an open path,
and renaming one path over another. -/
inductive FsAction where
  | openTrunc (path : String)
  | writeContent (path : String) (content : List (String × Nat))
  | rename (src dst : String)
deriving DecidableEq

/-- The file-system trace of `OffsetStore.save` (offsets.py lines 29-32):
`open(self._path, "w")` truncates the ledger file itself, then `json.dump`
writes the whole table into it. -/
def OffsetStore.saveActions (path : String) (s : OffsetStore) : List FsAction :=
  [FsAction.openTrunc path, FsAction.writeContent path s.table]

/-- The file-system trace of `OffsetStore.set` (offsets.py lines 24-27):
mutate the table, then `save`. -/
def OffsetStore.setActions (path : String) (s : OffsetStore) (cid : String)
    (v : Nat) : List FsAction :=
  OffsetStore.saveActions path { s with table := dictSet s.table cid v }

/-- The claim's persistence discipline, from the spec's words: the new table
becomes visible only through a rename onto the ledger path, and the ledger
path itself is never opened for in-place writing. -/
def atomicReplaceStrategy (path : String) (acts : List FsAction) : Bool :=
  (acts.any fun a =>
    match a with
    | FsAction.rename _ dst => dst == path
    | _ => false) &&
  (acts.all fun a =>
    match a with
    | FsAction.openTrunc p => p != path
    | FsAction.writeContent p _ => p != path
    | FsAction.rename _ _ => true)

/-- Python's `str.strip()`/`str.rstrip()` whitespace set: exactly the code
points CPython's `Py_UNICODE_ISSPACE` accepts — the ASCII whitespace
U+0009–U+000D and U+0020, the separator controls U+001C–U+001F, NEL U+0085,
no-break space U+00A0, Ogham space mark U+1680, the Unicode spaces
U+2000–U+200A, line separator U+2028, paragraph separator U+2029, narrow
no-break space U+202F, medium mathematical space U+205F and ideographic
space U+3000. -/
def isPySpace (c : Char) : Bool :=
  (9 ≤ c.toNat && c.toNat ≤ 13) || (28 ≤ c.toNat && c.toNat ≤ 32) ||
  c.toNat == 133 || c.toNat == 160 || c.toNat == 5760 ||
  (8192 ≤ c.toNat && c.toNat ≤ 8202) ||
  c.toNat == 8232 || c.toNat == 8233 || c.toNat == 8239 ||
  c.toNat == 8287 || c.toNat == 12288

/-- Python `str.rstrip()`. -/
def pyRstrip (s : List Char) : List Char :=
  (s.reverse.dropWhile isPySpace).reverse

/-- Python `str.strip()`. -/
def pyStrip (s : List Char) : List Char :=
  pyRstrip (s.dropWhile isPySpace)

/-- Python `str.upper()` (ASCII-faithful). -/
def pyUpper (s : List Char) : List Char :=
  s.map Char.toUpper

/-- Python `s.split(sep, 1)`: `some (before, after)` at the first separator,
`none` when the separator does not occur. -/
def splitOnce : List Char → Char → Option (List Char × List Char)
  | [], _ => none
  | c :: cs, sep =>
    if c = sep then some ([], cs)
    else
      match splitOnce cs sep with
      | none => none
      | some r => some (c :: r.1, r.2)

/-- `ParsedCommand` (protocol.py lines 15-20). -/
structure ParsedCommand where
  cmd : List Char
  args : List (List Char)
deriving DecidableEq

/-- `parse_command` (protocol.py lines 28-50): strip the line, reject an empty
line, split once on `' '`, uppercase the command token, reject unknown tokens
and missing/empty arguments, and return everything after the first space as
the single argument. -/
def parse_command (line : List Char) : Except String ParsedCommand :=
  let stripped := pyStrip line
  if stripped = [] then
    Except.error "Empty command"
  else
    match splitOnce stripped ' ' with
    | none =>
      let cmd := pyUpper stripped
      if cmd = "PUSH".toList ∨ cmd = "PULL".toList then
        Except.error (String.mk cmd ++ " requires an argument")
      else
        Except.error ("Unknown command: " ++ String.mk stripped)
    | some parts =>
      let cmd := pyUpper parts.1
      if cmd = "PUSH".toList ∨ cmd = "PULL".toList then
        if parts.2 = [] then
          Except.error (String.mk cmd ++ " requires an argument")
        else
          Except.ok { cmd := cmd, args := [parts.2] }
      else
        Except.error ("Unknown command: " ++ String.mk parts.1)

/-- The framed bytes `append` writes for one payload. -/
def encodeRecord (m : List Nat) : List Nat :=
  pack32 m.length ++ m

/-- The log-file bytes after pushing a list of payloads into an empty log. -/
def encodeLog : List (List Nat) → List Nat
  | [] => []
  | m :: rest => encodeRecord m ++ encodeLog rest

/-- The physical offsets of the records of `encodeLog`, shifted by a base
offset `o`. -/
def offsetsFrom (o : Nat) : List (List Nat) → List Nat
  | [] => []
  | m :: rest => o :: offsetsFrom (o + 4 + m.length) rest

theorem pack32_length (n : Nat) : (pack32 n).length = 4 := rfl

theorem unpack32_pack32 (n : Nat) (h : n < 4294967296) :
    unpack32 (pack32 n) = n := by
  simp only [pack32, unpack32, List.foldl]
  omega

theorem encodeRecord_length (m : List Nat) :
    (encodeRecord m).length = 4 + m.length := by
  simp [encodeRecord, pack32_length]

theorem encodeLog_append (a b : List (List Nat)) :
    encodeLog (a ++ b) = encodeLog a ++ encodeLog b := by
  induction a with
  | nil => simp [encodeLog]
  | cons m rest ih => simp [encodeLog, ih]

theorem length_le_encodeLog_length (msgs : List (List Nat)) :
    msgs.length ≤ (encodeLog msgs).length := by
  induction msgs with
  | nil => simp [encodeLog]
  | cons m rest ih =>
    simp only [encodeLog, List.length_cons, List.length_append,
      encodeRecord_length]
    omega

theorem offsetsFrom_length (o : Nat) (msgs : List (List Nat)) :
    (offsetsFrom o msgs).length = msgs.length := by
  induction msgs generalizing o with
  | nil => rfl
  | cons m rest ih => simp [offsetsFrom, ih]

theorem offsetsFrom_append (o : Nat) (a b : List (List Nat)) :
    offsetsFrom o (a ++ b)
      = offsetsFrom o a ++ offsetsFrom (o + (encodeLog a).length) b := by
  induction a generalizing o with
  | nil => simp [offsetsFrom, encodeLog]
  | cons m rest ih =>
    have harith : o + 4 + m.length + (encodeLog rest).length
        = o + ((encodeLog (m :: rest)).length) := by
      simp only [encodeLog, List.length_append, encodeRecord_length]
      omega
    simp only [List.cons_append, offsetsFrom, List.append_eq]
    rw [ih, harith]

theorem readRecord_eq (file : List Nat) (offset : Nat) :
    readRecord file offset =
      if ((file.drop offset).take 4).length < 4 then
        Except.error "incomplete header"
      else if (((file.drop offset).drop 4).take
          (unpack32 ((file.drop offset).take 4))).length
          < unpack32 ((file.drop offset).take 4) then
        Except.error "incomplete data"
      else
        Except.ok (((file.drop offset).drop 4).take
          (unpack32 ((file.drop offset).take 4))) := rfl

theorem replayLoop_succ (fuel : Nat) (file : List Nat) (offset : Nat) :
    replayLoop (fuel + 1) file offset =
      if (file.drop offset).length < 4 then []
      else if (((file.drop offset).drop 4).take
          (unpack32 ((file.drop offset).take 4))).length
          < unpack32 ((file.drop offset).take 4) then []
      else
        (offset, ((file.drop offset).drop 4).take
            (unpack32 ((file.drop offset).take 4)))
          :: replayLoop fuel file
              (offset + 4 + unpack32 ((file.drop offset).take 4)) := rfl

/-- Reading at the start of a fully written record returns exactly its
payload, whatever bytes surround it. -/
theorem readRecord_exact (pre m tail : List Nat) (hm : m.length < 4294967296) :
    readRecord (pre ++ (pack32 m.length ++ (m ++ tail))) pre.length
      = Except.ok m := by
  rw [readRecord_eq, List.drop_left]
  rw [List.take_left' (pack32_length m.length), unpack32_pack32 m.length hm]
  rw [List.drop_left' (pack32_length m.length)]
  rw [List.take_left' (rfl : m.length = m.length)]
  simp [pack32_length]

/-- Reading at the `i`-th recorded offset of a fully framed log returns the
`i`-th payload. -/
theorem readRecord_encodeLog (msgs : List (List Nat)) (pre : List Nat)
    (i : Nat) (hi : i < msgs.length)
    (hv : ∀ m ∈ msgs, m.length < 4294967296) :
    readRecord (pre ++ encodeLog msgs) ((offsetsFrom pre.length msgs).getD i 0)
      = Except.ok (msgs.getD i []) := by
  induction msgs generalizing pre i with
  | nil => simp at hi
  | cons m rest ih =>
    cases i with
    | zero =>
      have hm : m.length < 4294967296 := hv m (by simp)
      have hshape : encodeLog (m :: rest)
          = pack32 m.length ++ (m ++ encodeLog rest) := by
        simp [encodeLog, encodeRecord, List.append_assoc]
      have hoff : (offsetsFrom pre.length (m :: rest)).getD 0 0 = pre.length := by
        simp [offsetsFrom]
      rw [hoff, hshape]
      simpa using readRecord_exact pre m (encodeLog rest) hm
    | succ j =>
      have hlen : pre.length + 4 + m.length = (pre ++ encodeRecord m).length := by
        simp [encodeRecord_length]
        omega
      have hofs : (offsetsFrom pre.length (m :: rest)).getD (j + 1) 0
          = (offsetsFrom ((pre ++ encodeRecord m).length) rest).getD j 0 := by
        simp [offsetsFrom, hlen]
      have hfile : pre ++ encodeLog (m :: rest)
          = (pre ++ encodeRecord m) ++ encodeLog rest := by
        simp [encodeLog, List.append_assoc]
      have hj : j < rest.length := by simpa using hi
      have := ih (pre ++ encodeRecord m) j hj
        (fun x hx => hv x (List.mem_cons_of_mem _ hx))
      rw [hofs, hfile]
      simpa using this

/-- A trailing byte fragment that is not a fully written record: either the
4-byte length header is short or missing, or the payload is shorter than the
header declares. -/
def IncompleteFrag (frag : List Nat) : Prop :=
  frag.length < 4 ∨ frag.length < 4 + unpack32 (frag.take 4)

instance (frag : List Nat) : Decidable (IncompleteFrag frag) :=
  inferInstanceAs
    (Decidable (frag.length < 4 ∨ frag.length < 4 + unpack32 (frag.take 4)))

/-- The replay loop over a fully framed log plus an incomplete trailing
fragment yields exactly the framed records with their offsets and nothing
from the fragment. -/
theorem replayLoop_encodeLog (msgs : List (List Nat)) (pre frag : List Nat)
    (fuel : Nat) (hfuel : msgs.length < fuel)
    (hv : ∀ m ∈ msgs, m.length < 4294967296) (hf : IncompleteFrag frag) :
    replayLoop fuel (pre ++ (encodeLog msgs ++ frag)) pre.length
      = (offsetsFrom pre.length msgs).zip msgs := by
  induction msgs generalizing pre fuel with
  | nil =>
    cases fuel with
    | zero => omega
    | succ f =>
      rw [replayLoop_succ]
      simp only [encodeLog, List.nil_append, offsetsFrom, List.zip_nil_left]
      rw [List.drop_left]
      by_cases h4 : frag.length < 4
      · simp [h4]
      · have hlt : frag.length < 4 + unpack32 (frag.take 4) := by
          rcases hf with h | h
          · omega
          · exact h
        simp [h4]
        omega
  | cons m rest ih =>
    cases fuel with
    | zero => omega
    | succ f =>
      have hm : m.length < 4294967296 := hv m (by simp)
      have hshape : encodeLog (m :: rest) ++ frag
          = pack32 m.length ++ (m ++ (encodeLog rest ++ frag)) := by
        simp [encodeLog, encodeRecord, List.append_assoc]
      rw [replayLoop_succ, hshape, List.drop_left]
      rw [List.take_left' (pack32_length m.length), unpack32_pack32 m.length hm]
      rw [List.drop_left' (pack32_length m.length)]
      rw [List.take_left' (rfl : m.length = m.length)]
      have hc1 : ¬ (pack32 m.length ++ (m ++ (encodeLog rest ++ frag))).length
          < 4 := by
        simp [pack32_length]
      have hc2 : ¬ m.length < m.length := Nat.lt_irrefl _
      rw [if_neg hc1, if_neg hc2]
      have hlen : pre.length + 4 + m.length = (pre ++ encodeRecord m).length := by
        simp [encodeRecord_length]
        omega
      have hfile : pre ++ (pack32 m.length ++ (m ++ (encodeLog rest ++ frag)))
          = (pre ++ encodeRecord m) ++ (encodeLog rest ++ frag) := by
        simp [encodeRecord, List.append_assoc]
      have hrec := ih (pre ++ encodeRecord m) f (by simpa using hfuel)
        (fun x hx => hv x (List.mem_cons_of_mem _ hx))
      rw [hfile, hlen, hrec]
      simp [offsetsFrom, hlen]

/-- `replay` over a fully framed log plus an incomplete trailing fragment. -/
theorem replayFrom_encodeLog (msgs : List (List Nat)) (frag : List Nat)
    (hv : ∀ m ∈ msgs, m.length < 4294967296) (hf : IncompleteFrag frag) :
    replayFrom (encodeLog msgs ++ frag) 0 = (offsetsFrom 0 msgs).zip msgs := by
  have hfuel : msgs.length < (encodeLog msgs ++ frag).length + 1 := by
    have := length_le_encodeLog_length msgs
    simp only [List.length_append]
    omega
  have := replayLoop_encodeLog msgs [] frag
    ((encodeLog msgs ++ frag).length + 1) hfuel hv hf
  simpa [replayFrom] using this

theorem dictGet_dictSet (t : List (String × Nat)) (k k' : String) (v : Nat) :
    dictGet (dictSet t k v) k' = if k' = k then v else dictGet t k' := by
  induction t with
  | nil =>
    by_cases h : k' = k <;> simp [dictSet, dictGet, h]
  | cons p rest ih =>
    obtain ⟨pk, pv⟩ := p
    by_cases hk : k = pk
    · subst hk
      by_cases h : k' = k
      · subst h
        simp [dictSet, dictGet]
      · simp [dictSet, dictGet, h]
    · by_cases h : k' = pk
      · have hpk : pk ≠ k := fun he => hk he.symm
        simp [dictSet, dictGet, hk, h, hpk]
      · simp [dictSet, dictGet, hk, h, ih]

theorem OffsetStore.get_set (s : OffsetStore) (cid c : String) (v : Nat) :
    (s.set cid v).get c = if c = cid then v else s.get c := by
  simp [OffsetStore.set, OffsetStore.save, OffsetStore.get, dictGet_dictSet]

/-- The queue-state invariant tying a reachable state to the list of payloads
pushed so far: the log file is the framed encoding of the payloads, the
cached write offset is the file length, the index holds the record offsets,
every payload fit `struct.pack`, and the ledger file matches the in-memory
table. -/
structure QueueInv (q : PersistentQueue) (msgs : List (List Nat)) : Prop where
  file_eq : q.log.file = encodeLog msgs
  wo_eq : q.log.writeOffset = (encodeLog msgs).length
  index_eq : q.index = offsetsFrom 0 msgs
  valid : ∀ m ∈ msgs, m.length < 4294967296
  disk_sync : q.offsets.disk = q.offsets.table

theorem QueueInv_new : QueueInv newQueue [] :=
  ⟨rfl, rfl, rfl, by simp, rfl⟩

theorem QueueInv_push (q : PersistentQueue) (msgs : List (List Nat)) (d : List Nat)
    (h : QueueInv q msgs) (hd : d.length < 4294967296) :
    QueueInv (q.push d).1 (msgs ++ [d]) := by
  refine ⟨?_, ?_, ?_, ?_, ?_⟩
  · show q.log.file ++ pack32 d.length ++ d = encodeLog (msgs ++ [d])
    rw [h.file_eq, encodeLog_append]
    simp [encodeLog, encodeRecord, List.append_assoc]
  · show q.log.writeOffset + 4 + d.length = (encodeLog (msgs ++ [d])).length
    rw [h.wo_eq, encodeLog_append]
    simp only [List.length_append, encodeLog, encodeRecord_length,
      List.length_nil]
    omega
  · show q.index ++ [q.log.writeOffset] = offsetsFrom 0 (msgs ++ [d])
    rw [h.index_eq, h.wo_eq, offsetsFrom_append]
    simp [offsetsFrom]
  · intro m hm
    rcases List.mem_append.1 hm with hm | hm
    · exact h.valid m hm
    · simp only [List.mem_singleton] at hm
      subst hm
      exact hd
  · exact h.disk_sync

theorem pull_miss (q : PersistentQueue) (cid : String)
    (h : q.index.length ≤ q.offsets.get cid) :
    q.pull cid = (q, Except.ok none) := by
  unfold PersistentQueue.pull
  rw [dif_neg (Nat.not_lt.2 h)]

theorem pull_hit (q : PersistentQueue) (msgs : List (List Nat)) (cid : String)
    (h : QueueInv q msgs) (hlt : q.offsets.get cid < msgs.length) :
    q.pull cid
      = ({ q with offsets := q.offsets.set cid (q.offsets.get cid + 1) },
         Except.ok (some (msgs.getD (q.offsets.get cid) []))) := by
  have hlen : q.index.length = msgs.length := by
    rw [h.index_eq, offsetsFrom_length]
  have hlt' : q.offsets.get cid < q.index.length := by omega
  have h1 : q.index.get ⟨q.offsets.get cid, hlt'⟩
      = q.index.getD (q.offsets.get cid) 0 := by
    rw [List.get_eq_getElem, List.getD_eq_getElem _ _ hlt']
  have hread : q.log.readAt (q.index.get ⟨q.offsets.get cid, hlt'⟩)
      = Except.ok (msgs.getD (q.offsets.get cid) []) := by
    rw [AppendLog.readAt, h1, h.index_eq, h.file_eq]
    have := readRecord_encodeLog msgs [] (q.offsets.get cid) hlt h.valid
    simpa using this
  unfold PersistentQueue.pull
  rw [dif_pos hlt', hread]

theorem QueueInv_pull (q : PersistentQueue) (msgs : List (List Nat)) (cid : String)
    (h : QueueInv q msgs) : QueueInv (q.pull cid).1 msgs := by
  by_cases hlt : q.offsets.get cid < msgs.length
  · rw [pull_hit q msgs cid h hlt]
    exact ⟨h.file_eq, h.wo_eq, h.index_eq, h.valid, rfl⟩
  · have hlen : q.index.length = msgs.length := by
      rw [h.index_eq, offsetsFrom_length]
    rw [pull_miss q cid (by omega)]
    exact h

theorem pushAll_offsets (q : PersistentQueue) (msgs : List (List Nat)) :
    (pushAll q msgs).offsets = q.offsets := by
  induction msgs generalizing q with
  | nil => rfl
  | cons m rest ih =>
    calc (pushAll q (m :: rest)).offsets
        = (pushAll (q.push m).1 rest).offsets := rfl
      _ = (q.push m).1.offsets := ih _
      _ = q.offsets := rfl

theorem QueueInv_pushAll (q : PersistentQueue) (msgs new : List (List Nat))
    (h : QueueInv q msgs) (hv : ∀ m ∈ new, m.length < 4294967296) :
    QueueInv (pushAll q new) (msgs ++ new) := by
  induction new generalizing q msgs with
  | nil => simpa using h
  | cons m rest ih =>
    have h1 := QueueInv_push q msgs m h (hv m (by simp))
    have h2 := ih (q.push m).1 (msgs ++ [m]) h1
      (fun x hx => hv x (by simp [hx]))
    show QueueInv (pushAll (q.push m).1 rest) (msgs ++ m :: rest)
    simpa [List.append_assoc] using h2

theorem QueueInv_runOps (ops : List QOp) (q : PersistentQueue)
    (msgs : List (List Nat)) (h : QueueInv q msgs)
    (hv : ∀ op ∈ ops, validOp op) :
    ∃ msgs2, QueueInv (runOps q ops) msgs2 := by
  induction ops generalizing q msgs with
  | nil => exact ⟨msgs, h⟩
  | cons op rest ih =>
    have hrest : ∀ o ∈ rest, validOp o := fun o ho => hv o (by simp [ho])
    cases op with
    | push d =>
      have hd : validOp (QOp.push d) := hv (QOp.push d) (by simp)
      exact ih (q.push d).1 (msgs ++ [d]) (QueueInv_push q msgs d h hd) hrest
    | pull c =>
      exact ih (q.pull c).1 msgs (QueueInv_pull q msgs c h) hrest

/-- A state satisfying the invariant is reproduced exactly by reopening its
persisted files. -/
theorem openQueue_disk (q : PersistentQueue) (msgs : List (List Nat))
    (h : QueueInv q msgs) : PersistentQueue.openQueue q.disk = q := by
  have hreplay : replayFrom (encodeLog msgs) 0 = (offsetsFrom 0 msgs).zip msgs := by
    have := replayFrom_encodeLog msgs [] h.valid (Or.inl (by simp))
    simpa using this
  have hmap : ((offsetsFrom 0 msgs).zip msgs).map Prod.fst = offsetsFrom 0 msgs :=
    List.map_fst_zip _ _ (le_of_eq (offsetsFrom_length 0 msgs))
  obtain ⟨⟨file, wo⟩, ⟨table, disk⟩, index⟩ := q
  obtain ⟨hf, hw, hi, hv, hd⟩ := h
  dsimp only at hf hw hi hd
  subst hf hw hi hd
  simp [PersistentQueue.openQueue, PersistentQueue.disk, AppendLog.openLog,
    OffsetStore.load, AppendLog.replay, hreplay, hmap]

/-- The results a consumer starting at cursor `k` gets from `n` successive
pulls against a queue holding `msgs`. -/
def pullSpec (msgs : List (List Nat)) : Nat → Nat → List (Except String (Option (List Nat)))
  | _, 0 => []
  | k, n + 1 =>
    if k < msgs.length then
      Except.ok (some (msgs.getD k [])) :: pullSpec msgs (k + 1) n
    else
      Except.ok none :: pullSpec msgs k n

theorem pullN_eq_pullSpec (msgs : List (List Nat)) (q : PersistentQueue)
    (cid : String) (n : Nat) (h : QueueInv q msgs) :
    (pullN q cid n).2 = pullSpec msgs (q.offsets.get cid) n := by
  induction n generalizing q with
  | zero => rfl
  | succ n ih =>
    by_cases hlt : q.offsets.get cid < msgs.length
    · have hp := pull_hit q msgs cid h hlt
      have hq2 : (q.pull cid).1
          = { q with offsets := q.offsets.set cid (q.offsets.get cid + 1) } := by
        rw [hp]
      have hr : (q.pull cid).2
          = Except.ok (some (msgs.getD (q.offsets.get cid) [])) := by
        rw [hp]
      have hg : (q.pull cid).1.offsets.get cid = q.offsets.get cid + 1 := by
        rw [hq2]
        simp [OffsetStore.get_set]
      have hrec := ih (q.pull cid).1 (QueueInv_pull q msgs cid h)
      rw [hg] at hrec
      calc (pullN q cid (n + 1)).2
          = (q.pull cid).2 :: (pullN (q.pull cid).1 cid n).2 := rfl
        _ = Except.ok (some (msgs.getD (q.offsets.get cid) []))
              :: pullSpec msgs (q.offsets.get cid + 1) n := by rw [hr, hrec]
        _ = pullSpec msgs (q.offsets.get cid) (n + 1) := by
              simp [pullSpec, hlt]
    · have hlen : q.index.length = msgs.length := by
        rw [h.index_eq, offsetsFrom_length]
      have hp := pull_miss q cid (by omega)
      have hq2 : (q.pull cid).1 = q := by rw [hp]
      have hr : (q.pull cid).2 = Except.ok none := by rw [hp]
      have hrec := ih (q.pull cid).1 (QueueInv_pull q msgs cid h)
      rw [hq2] at hrec
      calc (pullN q cid (n + 1)).2
          = (q.pull cid).2 :: (pullN (q.pull cid).1 cid n).2 := rfl
        _ = Except.ok none :: pullSpec msgs (q.offsets.get cid) n := by
              rw [hr, hq2, hrec]
        _ = pullSpec msgs (q.offsets.get cid) (n + 1) := by
              simp [pullSpec, hlt]

theorem pullSpec_from (msgs : List (List Nat)) (n k : Nat)
    (h : k + n = msgs.length) :
    pullSpec msgs k (n + 1)
      = (msgs.drop k).map (fun m => Except.ok (some m)) ++ [Except.ok none] := by
  induction n generalizing k with
  | zero =>
    have hk : k = msgs.length := by omega
    simp [pullSpec, hk]
  | succ n ih =>
    have hk : k < msgs.length := by omega
    have hdrop : msgs.drop k = msgs.getD k [] :: msgs.drop (k + 1) := by
      rw [List.drop_eq_getElem_cons hk, List.getD_eq_getElem _ _ hk]
    have hstep : pullSpec msgs k (n + 1 + 1)
        = Except.ok (some (msgs.getD k [])) :: pullSpec msgs (k + 1) (n + 1) := by
      rw [show pullSpec msgs k (n + 1 + 1)
          = if k < msgs.length then
              Except.ok (some (msgs.getD k [])) :: pullSpec msgs (k + 1) (n + 1)
            else Except.ok none :: pullSpec msgs k (n + 1) from rfl]
      rw [if_pos hk]
    rw [hstep, ih (k + 1) (by omega), hdrop]
    simp

theorem successBodies_cons_ok (c : String) (m : List Nat)
    (rs : List (String × Except String (Option (List Nat)))) :
    successBodies c ((c, Except.ok (some m)) :: rs) = m :: successBodies c rs := by
  simp [successBodies]

theorem successBodies_cons_none (c : String)
    (rs : List (String × Except String (Option (List Nat)))) :
    successBodies c ((c, Except.ok (none : Option (List Nat))) :: rs)
      = successBodies c rs := by
  simp [successBodies]

theorem successBodies_cons_other (c c0 : String)
    (r : Except String (Option (List Nat)))
    (rs : List (String × Except String (Option (List Nat)))) (h : ¬ c0 = c) :
    successBodies c ((c0, r) :: rs) = successBodies c rs := by
  simp [successBodies, h]

/-- Running any interleaved pull schedule: each consumer receives the next
`countId c sched` payloads from its own cursor position onward, regardless of
how the other consumers' pulls are interleaved. -/
theorem runPulls_successes (msgs : List (List Nat)) (q : PersistentQueue)
    (sched : List String) (c : String) (h : QueueInv q msgs) :
    successBodies c (runPulls q sched).2
      = (msgs.drop (q.offsets.get c)).take (countId c sched) := by
  induction sched generalizing q with
  | nil => simp [runPulls, successBodies, countId]
  | cons c0 rest ih =>
    have hstep : (runPulls q (c0 :: rest)).2
        = (c0, (q.pull c0).2) :: (runPulls (q.pull c0).1 rest).2 := rfl
    rw [hstep]
    have hrec := ih (q.pull c0).1 (QueueInv_pull q msgs c0 h)
    by_cases hlt : q.offsets.get c0 < msgs.length
    · have hp := pull_hit q msgs c0 h hlt
      have hq2 : (q.pull c0).1
          = { q with offsets := q.offsets.set c0 (q.offsets.get c0 + 1) } := by
        rw [hp]
      have hr : (q.pull c0).2
          = Except.ok (some (msgs.getD (q.offsets.get c0) [])) := by
        rw [hp]
      by_cases hc : c0 = c
      · subst hc
        have hg : (q.pull c0).1.offsets.get c0 = q.offsets.get c0 + 1 := by
          rw [hq2]
          simp [OffsetStore.get_set]
        rw [hr, successBodies_cons_ok, hrec, hg]
        have hcount : countId c0 (c0 :: rest) = 1 + countId c0 rest := by
          simp [countId]
        have hdrop : msgs.drop (q.offsets.get c0)
            = msgs.getD (q.offsets.get c0) [] :: msgs.drop (q.offsets.get c0 + 1) := by
          rw [List.drop_eq_getElem_cons hlt, List.getD_eq_getElem _ _ hlt]
        rw [hcount, Nat.add_comm 1 (countId c0 rest), hdrop, List.take_succ_cons]
      · have hc2 : ¬ c = c0 := fun he => hc he.symm
        have hg : (q.pull c0).1.offsets.get c = q.offsets.get c := by
          rw [hq2]
          simp [OffsetStore.get_set, hc2]
        rw [hr, successBodies_cons_other c c0 _ _ hc, hrec, hg]
        have hcount : countId c (c0 :: rest) = countId c rest := by
          simp [countId, hc]
        rw [hcount]
    · have hlen : q.index.length = msgs.length := by
        rw [h.index_eq, offsetsFrom_length]
      have hp := pull_miss q c0 (by omega)
      have hq2 : (q.pull c0).1 = q := by rw [hp]
      have hr : (q.pull c0).2 = Except.ok none := by rw [hp]
      rw [hq2] at hrec
      by_cases hc : c0 = c
      · subst hc
        have hdropnil : msgs.drop (q.offsets.get c0) = [] :=
          List.drop_eq_nil_of_le (by omega)
        rw [hr, hq2, successBodies_cons_none, hrec, hdropnil]
        simp
      · rw [hr, hq2, successBodies_cons_other c c0 _ _ hc, hrec]
        have hcount : countId c (c0 :: rest) = countId c rest := by
          simp [countId, hc]
        rw [hcount]

/-- Every consumer cursor is within the index bound. -/
def CursorBound (q : PersistentQueue) : Prop :=
  ∀ c, q.offsets.get c ≤ q.index.length

theorem cursorBound_push (q : PersistentQueue) (d : List Nat)
    (h : CursorBound q) : CursorBound (q.push d).1 := by
  intro c
  have := h c
  show q.offsets.get c ≤ (q.index ++ [(q.log.append d).2]).length
  simp only [List.length_append, List.length_cons, List.length_nil]
  omega

theorem cursorBound_pull (q : PersistentQueue) (cid : String)
    (h : CursorBound q) : CursorBound (q.pull cid).1 := by
  intro c
  unfold PersistentQueue.pull
  by_cases hlt : q.offsets.get cid < q.index.length
  · rw [dif_pos hlt]
    cases hread : q.log.readAt (q.index.get ⟨q.offsets.get cid, hlt⟩) with
    | error e => exact h c
    | ok data =>
      show ({ q with offsets := q.offsets.set cid (q.offsets.get cid + 1) }
          : PersistentQueue).offsets.get c ≤ q.index.length
      rw [show ({ q with offsets := q.offsets.set cid (q.offsets.get cid + 1) }
          : PersistentQueue).offsets = q.offsets.set cid (q.offsets.get cid + 1)
        from rfl]
      rw [OffsetStore.get_set]
      by_cases hc : c = cid
      · subst hc
        rw [if_pos rfl]
        omega
      · rw [if_neg hc]
        exact h c
  · rw [dif_neg hlt]
    exact h c

theorem cursorBound_runOps (ops : List QOp) (q : PersistentQueue)
    (h : CursorBound q) : CursorBound (runOps q ops) := by
  induction ops generalizing q with
  | nil => exact h
  | cons op rest ih =>
    cases op with
    | push d => exact ih _ (cursorBound_push q d h)
    | pull c => exact ih _ (cursorBound_pull q c h)

theorem cursorBound_new : CursorBound newQueue := by
  intro c
  show dictGet [] c ≤ _
  simp [dictGet]

theorem not_pySpace_of_upper_push (x : Char)
    (hx : Char.toUpper x ∈ "PUSH".toList) : isPySpace x = false := by
  by_cases h : 97 ≤ x.toNat ∧ x.toNat ≤ 122
  · cases hb : isPySpace x
    · rfl
    · exfalso
      simp only [isPySpace, Bool.or_eq_true, Bool.and_eq_true,
        decide_eq_true_eq, beq_iff_eq] at hb
      omega
  · have hfix : Char.toUpper x = x := by
      simp [Char.toUpper, h]
    rw [hfix] at hx
    exact (by decide : ∀ c ∈ "PUSH".toList, isPySpace c = false) x hx

theorem splitOnce_append (tok rest : List Char) (h : ' ' ∉ tok) :
    splitOnce (tok ++ ' ' :: rest) ' ' = some (tok, rest) := by
  induction tok with
  | nil => simp [splitOnce]
  | cons t tt ih =>
    have ht : ¬ t = ' ' := fun he => h (by simp [he])
    have hih := ih (fun hm => h (by simp [hm]))
    simp [splitOnce, ht, hih]

theorem pyRstrip_append_space (l : List Char) (c : Char)
    (h : isPySpace c = true) : pyRstrip (l ++ [c]) = pyRstrip l := by
  simp [pyRstrip, h]

theorem pyRstrip_append_of_ne_nil (x y : List Char) (h : pyRstrip y ≠ []) :
    pyRstrip (x ++ y) = x ++ pyRstrip y := by
  have h2 : ¬ (y.reverse.dropWhile isPySpace).isEmpty = true := by
    intro hcon
    apply h
    unfold pyRstrip
    rw [List.isEmpty_iff.1 hcon]
    rfl
  unfold pyRstrip
  rw [List.reverse_append, List.dropWhile_append, if_neg h2,
    List.reverse_append]
  simp

/-- C9 (amended): for every line `tok ++ " " ++ msg ++ "\n"` whose command
token uppercases to `PUSH` and whose newline-free message has a non-empty
right-strip, parsing produces a PUSH command whose single argument is the
characters after the first space up to the terminator *with trailing
whitespace removed* (the code strips the whole line before splitting);
embedded spaces and spaces directly after the first space are preserved. -/
theorem c9_push_message_amended (tok msg : List Char)
    (htok : pyUpper tok = "PUSH".toList)
    (hnl : ∀ c ∈ msg, ¬ c = '\n')
    (hmsg : pyRstrip msg ≠ []) :
    parse_command (tok ++ ' ' :: (msg ++ ['\n']))
      = Except.ok { cmd := "PUSH".toList, args := [pyRstrip msg] } := by
  have hmem : ∀ x ∈ tok, Char.toUpper x ∈ "PUSH".toList := by
    intro x hx
    rw [← htok]
    exact List.mem_map_of_mem _ hx
  have hnosp : ' ' ∉ tok := by
    intro hs
    exact absurd (hmem ' ' hs) (by decide)
  cases tok with
  | nil => exact absurd htok (by decide)
  | cons t tt =>
    have hts : isPySpace t = false := not_pySpace_of_upper_push t (hmem t (by simp))
    have hdw : ((t :: tt) ++ ' ' :: (msg ++ ['\n'])).dropWhile isPySpace
        = (t :: tt) ++ ' ' :: (msg ++ ['\n']) := by
      simp [List.dropWhile_cons, hts]
    have hrs : pyRstrip ((t :: tt) ++ ' ' :: (msg ++ ['\n']))
        = (t :: tt) ++ ' ' :: pyRstrip msg := by
      have e1 : (t :: tt) ++ ' ' :: (msg ++ ['\n'])
          = (((t :: tt) ++ [' ']) ++ msg) ++ ['\n'] := by simp
      rw [e1, pyRstrip_append_space _ '\n' (by decide),
        pyRstrip_append_of_ne_nil _ msg hmsg]
      simp
    have hstrip : pyStrip ((t :: tt) ++ ' ' :: (msg ++ ['\n']))
        = (t :: tt) ++ ' ' :: pyRstrip msg := by
      unfold pyStrip
      rw [hdw, hrs]
    have hsplit : splitOnce ((t :: tt) ++ ' ' :: pyRstrip msg) ' '
        = some (t :: tt, pyRstrip msg) := splitOnce_append _ _ hnosp
    simp only [parse_command, hstrip, hsplit]
    rw [if_neg (by simp : ¬ ((t :: tt) ++ ' ' :: pyRstrip msg) = [])]
    simp only [htok]
    simp [hmsg]

/-- C1: for every sequence of N pushed messages, a consumer identity that has
never pulled receives, over its first N pulls against the fresh queue,
exactly the N payloads in push order, and the (N+1)th pull returns the
no-message result rather than a message or an error. -/
theorem c1_fifo_order (msgs : List (List Nat)) (cid : String)
    (hv : ∀ m ∈ msgs, m.length < 4294967296) :
    (pullN (pushAll newQueue msgs) cid (msgs.length + 1)).2
      = msgs.map (fun m => Except.ok (some m)) ++ [Except.ok none] := by
  have hInv : QueueInv (pushAll newQueue msgs) msgs := by
    have := QueueInv_pushAll newQueue [] msgs QueueInv_new hv
    simpa using this
  have hcur : (pushAll newQueue msgs).offsets.get cid = 0 := by
    rw [pushAll_offsets]
    rfl
  rw [pullN_eq_pullSpec msgs _ cid (msgs.length + 1) hInv, hcur]
  have := pullSpec_from msgs msgs.length 0 (by omega)
  simpa using this

/-- Witness for C1 at msgs = [[1], [2, 3]], cid = "c1". -/
theorem c1_fifo_order_witness :
    (∀ m ∈ ([[1], [2, 3]] : List (List Nat)), m.length < 4294967296) ∧
    (pullN (pushAll newQueue [[1], [2, 3]]) "c1" 3).2
      = ([[1], [2, 3]] : List (List Nat)).map (fun m => Except.ok (some m))
          ++ [Except.ok none] :=
  ⟨by decide, c1_fifo_order [[1], [2, 3]] "c1" (by decide)⟩

/-- C2: for every pushed sequence and two distinct consumer identities, under
any interleaved schedule of their pulls in which each pulls at least N times,
each consumer's sequence of successfully received payloads is the full
ordered message sequence. -/
theorem c2_broadcast (msgs : List (List Nat)) (sched : List String)
    (ca cb : String) (hv : ∀ m ∈ msgs, m.length < 4294967296)
    (hne : ca ≠ cb) (hs : ∀ s ∈ sched, s = ca ∨ s = cb)
    (h1 : msgs.length ≤ countId ca sched)
    (h2 : msgs.length ≤ countId cb sched) :
    successBodies ca (runPulls (pushAll newQueue msgs) sched).2 = msgs ∧
    successBodies cb (runPulls (pushAll newQueue msgs) sched).2 = msgs := by
  have hInv : QueueInv (pushAll newQueue msgs) msgs := by
    have := QueueInv_pushAll newQueue [] msgs QueueInv_new hv
    simpa using this
  have hcur : ∀ c, (pushAll newQueue msgs).offsets.get c = 0 := by
    intro c
    rw [pushAll_offsets]
    rfl
  constructor
  · rw [runPulls_successes msgs _ sched ca hInv, hcur ca, List.drop_zero]
    exact List.take_of_length_le h1
  · rw [runPulls_successes msgs _ sched cb hInv, hcur cb, List.drop_zero]
    exact List.take_of_length_le h2

/-- Witness for C2 at msgs = [[1], [2]], an interleaved schedule of
consumers "a" and "b". -/
theorem c2_broadcast_witness :
    (∀ m ∈ ([[1], [2]] : List (List Nat)), m.length < 4294967296) ∧
    ("a" : String) ≠ "b" ∧
    (∀ s ∈ ["a", "b", "a", "b", "b", "a"], s = "a" ∨ s = "b") ∧
    ([[1], [2]] : List (List Nat)).length ≤ countId "a" ["a", "b", "a", "b", "b", "a"] ∧
    ([[1], [2]] : List (List Nat)).length ≤ countId "b" ["a", "b", "a", "b", "b", "a"] ∧
    (successBodies "a"
        (runPulls (pushAll newQueue [[1], [2]]) ["a", "b", "a", "b", "b", "a"]).2
      = [[1], [2]] ∧
     successBodies "b"
        (runPulls (pushAll newQueue [[1], [2]]) ["a", "b", "a", "b", "b", "a"]).2
      = [[1], [2]]) :=
  ⟨by decide, by decide, by decide, by decide, by decide,
    c2_broadcast [[1], [2]] ["a", "b", "a", "b", "b", "a"] "a" "b"
      (by decide) (by decide) (by decide) (by decide) (by decide)⟩

/-- C3: restart idempotence: after any sequence of pushes (of packable
payloads) and pulls from a fresh queue, reopening a queue from only the
persisted log and ledger files reproduces the exact same state — in
particular the same message bytes at every ordinal and the same cursor value
for every consumer identity. -/
theorem c3_restart_idempotence (ops : List QOp)
    (hv : ∀ op ∈ ops, validOp op) :
    PersistentQueue.openQueue (runOps newQueue ops).disk
      = runOps newQueue ops := by
  obtain ⟨msgs2, hInv⟩ := QueueInv_runOps ops newQueue [] QueueInv_new hv
  exact openQueue_disk _ msgs2 hInv

/-- Witness for C3 at a concrete mixed push/pull history. -/
theorem c3_restart_idempotence_witness :
    (∀ op ∈ [QOp.push [7], QOp.pull "a", QOp.push [8, 9], QOp.pull "a",
        QOp.pull "b", QOp.pull "a"], validOp op) ∧
    PersistentQueue.openQueue
        (runOps newQueue [QOp.push [7], QOp.pull "a", QOp.push [8, 9],
          QOp.pull "a", QOp.pull "b", QOp.pull "a"]).disk
      = runOps newQueue [QOp.push [7], QOp.pull "a", QOp.push [8, 9],
          QOp.pull "a", QOp.pull "b", QOp.pull "a"] :=
  ⟨by decide, c3_restart_idempotence _ (by decide)⟩

/-- C4: for every log file consisting of k fully written length-framed
records followed by an incomplete trailing fragment (short or missing header,
or payload shorter than declared), replay yields exactly the k complete
records with their offsets, in file order, and nothing from the fragment. -/
theorem c4_replay_truncation (msgs : List (List Nat)) (frag : List Nat)
    (hv : ∀ m ∈ msgs, m.length < 4294967296) (hf : IncompleteFrag frag) :
    (AppendLog.openLog (encodeLog msgs ++ frag)).replay
      = (offsetsFrom 0 msgs).zip msgs := by
  show replayFrom (encodeLog msgs ++ frag) 0 = _
  exact replayFrom_encodeLog msgs frag hv hf

/-- Witness for C4 at two records and a 3-byte fragment. -/
theorem c4_replay_truncation_witness :
    (∀ m ∈ ([[1], [2]] : List (List Nat)), m.length < 4294967296) ∧
    IncompleteFrag [0, 0, 0] ∧
    (AppendLog.openLog (encodeLog [[1], [2]] ++ [0, 0, 0])).replay
      = (offsetsFrom 0 [[1], [2]]).zip [[1], [2]] :=
  ⟨by decide, by decide, c4_replay_truncation [[1], [2]] [0, 0, 0]
    (by decide) (by decide)⟩

/-- C5: for every payload whose size fits the 4-byte length field, appending
it to a log (whose cached write offset matches the file length, as always
holds for a log opened from a file) and reading at the offset returned by
append yields byte-identical content. -/
theorem c5_append_read_roundtrip (l : AppendLog) (data : List Nat)
    (hlen : data.length < 4294967296)
    (hwo : l.writeOffset = l.file.length) :
    (l.append data).1.readAt (l.append data).2 = Except.ok data := by
  show readRecord (l.file ++ pack32 data.length ++ data) l.writeOffset = _
  rw [hwo]
  have := readRecord_exact l.file data [] hlen
  simpa [List.append_assoc] using this

/-- Witness for C5 at a one-byte log and a two-byte payload. -/
theorem c5_append_read_roundtrip_witness :
    ([5, 6] : List Nat).length < 4294967296 ∧
    (AppendLog.mk [9] 1).writeOffset = (AppendLog.mk [9] 1).file.length ∧
    ((AppendLog.mk [9] 1).append [5, 6]).1.readAt
        ((AppendLog.mk [9] 1).append [5, 6]).2 = Except.ok [5, 6] :=
  ⟨by decide, by decide,
    c5_append_read_roundtrip (AppendLog.mk [9] 1) [5, 6] (by decide) (by decide)⟩

/-- C6: in every state reachable from a fresh queue by pushes and pulls, and
for every consumer identity, the cursor is at most the index length; since
reachability is closed under the queue operations (and `message_count` and
`consumer_offset` do not mutate state), every operation preserves the
bound. -/
theorem c6_cursor_bound (ops : List QOp) (cid : String) :
    (runOps newQueue ops).offsets.get cid ≤ (runOps newQueue ops).index.length :=
  cursorBound_runOps ops newQueue cursorBound_new cid

/-- C7: `readAt` validates both header and payload: at every offset where
the log bytes do not contain a complete 4-byte header followed by the full
declared payload, `readAt` fails with an error; and whenever it returns a
payload, the payload's length equals the declared length and the full framed
record lies within the file — never a silent shorter-than-declared result. -/
theorem c7_readAt_validates (l : AppendLog) (offset : Nat) :
    ((l.file.drop offset).length
        < 4 + unpack32 ((l.file.drop offset).take 4) →
      ∃ e, l.readAt offset = Except.error e) ∧
    (∀ d, l.readAt offset = Except.ok d →
      d.length = unpack32 ((l.file.drop offset).take 4) ∧
      4 + d.length ≤ (l.file.drop offset).length) := by
  constructor
  · intro hcond
    rw [AppendLog.readAt, readRecord_eq]
    by_cases h4 : ((l.file.drop offset).take 4).length < 4
    · rw [if_pos h4]
      exact ⟨_, rfl⟩
    · rw [if_neg h4]
      have hd : (((l.file.drop offset).drop 4).take
          (unpack32 ((l.file.drop offset).take 4))).length
          < unpack32 ((l.file.drop offset).take 4) := by
        simp only [List.length_take, List.length_drop] at hcond h4 ⊢
        omega
      rw [if_pos hd]
      exact ⟨_, rfl⟩
  · intro d hd
    rw [AppendLog.readAt, readRecord_eq] at hd
    by_cases h4 : ((l.file.drop offset).take 4).length < 4
    · rw [if_pos h4] at hd
      exact absurd hd (by simp)
    · rw [if_neg h4] at hd
      by_cases hdl : (((l.file.drop offset).drop 4).take
          (unpack32 ((l.file.drop offset).take 4))).length
          < unpack32 ((l.file.drop offset).take 4)
      · rw [if_pos hdl] at hd
        exact absurd hd (by simp)
      · rw [if_neg hdl] at hd
        have hdeq : ((l.file.drop offset).drop 4).take
            (unpack32 ((l.file.drop offset).take 4)) = d := Except.ok.inj hd
        subst hdeq
        simp only [List.length_take, List.length_drop] at hdl h4 ⊢
        omega

/-- Witness for C7: an error at an incomplete offset, and full validation of
a returned payload, at concrete logs. -/
theorem c7_readAt_validates_witness :
    ((AppendLog.mk [0] 1).file.drop 0).length
        < 4 + unpack32 (((AppendLog.mk [0] 1).file.drop 0).take 4) ∧
    (∃ e, (AppendLog.mk [0] 1).readAt 0 = Except.error e) ∧
    (AppendLog.mk [0, 0, 0, 1, 9] 5).readAt 0 = Except.ok [9] ∧
    (([9] : List Nat).length
        = unpack32 (((AppendLog.mk [0, 0, 0, 1, 9] 5).file.drop 0).take 4) ∧
      4 + ([9] : List Nat).length
        ≤ ((AppendLog.mk [0, 0, 0, 1, 9] 5).file.drop 0).length) :=
  ⟨by decide,
   (c7_readAt_validates (AppendLog.mk [0] 1) 0).1 (by decide),
   by decide,
   (c7_readAt_validates (AppendLog.mk [0, 0, 0, 1, 9] 5) 0).2 [9] (by decide)⟩

/-- C8 counterexample: persisting a concrete ledger table via `save` opens
the ledger file itself with a truncating write and performs no rename, so
the claimed write-temp-then-rename atomic-replace persistence fails. -/
theorem c8_atomic_replace_counterexample :
    atomicReplaceStrategy "offsets.json"
      (OffsetStore.saveActions "offsets.json"
        (OffsetStore.mk [("c1", 1)] [("c1", 1)])) = false := by
  decide

/-- C8 (amended): every persistence of the ledger (each `set`, which calls
`save`) rewrites the ledger file in place — it opens the ledger path itself
in truncating write mode and writes the whole updated table into it — and
performs no rename, so no temporary-file atomic replace is involved. -/
theorem c8_save_in_place (path : String) (s : OffsetStore) (cid : String)
    (v : Nat) :
    OffsetStore.setActions path s cid v
      = [FsAction.openTrunc path,
         FsAction.writeContent path (dictSet s.table cid v)] ∧
    ∀ src dst, FsAction.rename src dst ∉ OffsetStore.setActions path s cid v := by
  refine ⟨rfl, ?_⟩
  intro src dst hmem
  simp [OffsetStore.setActions, OffsetStore.saveActions] at hmem

/-- C9 counterexample: on the input line "PUSH hi \n" the characters after
the first space up to (but excluding) the terminator are "hi " with the
trailing space, but parsing returns the message "hi" — the trailing space is
stripped, so the claim as stated fails at this input. -/
theorem c9_counterexample :
    parse_command ("PUSH hi \n".toList)
      = Except.ok { cmd := "PUSH".toList, args := ["hi".toList] } ∧
    ("hi".toList : List Char) ≠ "hi ".toList :=
  ⟨by decide, by decide⟩

/-- Witness for C9 (amended) at token "push" and message "a b ". -/
theorem c9_push_message_amended_witness :
    pyUpper "push".toList = "PUSH".toList ∧
    (∀ c ∈ "a b ".toList, ¬ c = '\n') ∧
    pyRstrip "a b ".toList ≠ [] ∧
    parse_command ("push".toList ++ ' ' :: ("a b ".toList ++ ['\n']))
      = Except.ok { cmd := "PUSH".toList, args := [pyRstrip "a b ".toList] } :=
  ⟨by decide, by decide, by decide,
    c9_push_message_amended "push".toList "a b ".toList
      (by decide) (by decide) (by decide)⟩

/-- C10: for every queue state and consumer identity whose cursor is at
least the index length — including an identity never seen before on an empty
queue — pull returns the no-message result and returns the state unchanged:
log, index, in-memory ledger table and persisted ledger file are exactly as
before, and no ledger entry is created for the identity. -/
theorem c10_pull_empty_frame (q : PersistentQueue) (cid : String)
    (h : q.index.length ≤ q.offsets.get cid) :
    q.pull cid = (q, Except.ok none) :=
  pull_miss q cid h

/-- Witness for C10: a never-seen consumer identity on the fresh empty
queue. -/
theorem c10_pull_empty_frame_witness :
    newQueue.index.length ≤ newQueue.offsets.get "nobody" ∧
    newQueue.pull "nobody" = (newQueue, Except.ok none) :=
  ⟨by decide, c10_pull_empty_frame newQueue "nobody" (by decide)⟩
